import Mathlib

/-!
Verification of the script-segmentation and slide-note-application core of
`app.py` (functions `parse_script` and `process_ppt`).

Strings are modelled as `List Char`.  The two Python regexes
(`<[^>]+>` for markup stripping, `###\s*Slide\s*(\d+)` case-insensitive for
marker detection) are embedded as executable scanners that reproduce the
regex engine's behaviour on these particular patterns (leftmost scanning,
non-overlapping matches, greedy character classes; greediness never
backtracks here because the sub-patterns use disjoint character classes).
Character classes are modelled on their ASCII fragment (`\s`, `\d`,
`str.strip`), which is the fragment the application's marker grammar uses.
-/

/-- ASCII whitespace, the ASCII fragment of Python's `\s` class and of
`str.strip()`'s default strip set. -/
def pySpace (c : Char) : Bool :=
  c == ' ' || c == '\t' || c == '\n' || c == '\r' || c == '\x0b' || c == '\x0c'

/-- Python `s.strip()`: remove leading and trailing whitespace. -/
def pyStrip (l : List Char) : List Char :=
  ((l.dropWhile pySpace).reverse.dropWhile pySpace).reverse

/-- Python slice `s[a:b]` (for `a ≤ b`; clamps like Python does). -/
def sliceStr (l : List Char) (a b : Nat) : List Char :=
  (l.drop a).take (b - a)

/-- One step function of `re.sub(r'<[^>]+>', '', s)`, with fuel.
At a `<`, the regex matches exactly when a `>` occurs later with at least one
character in between; the match extends to the first such `>` (the greedy
`[^>]+` cannot cross a `>`).  Matched tags are deleted, everything else is
kept.  Fuel `l.length` is always sufficient because every recursive call
strictly shrinks the list. -/
def stripTagsF : Nat → List Char → List Char
  | 0, l => l
  | _ + 1, [] => []
  | fuel + 1, c :: rest =>
    if c = '<' then
      if (rest.takeWhile (fun x => x != '>')).isEmpty then
        c :: stripTagsF fuel rest
      else
        match rest.dropWhile (fun x => x != '>') with
        | _ :: rest2 => stripTagsF fuel rest2
        | [] => c :: stripTagsF fuel rest
    else c :: stripTagsF fuel rest

/-- `re.sub(r'<[^>]+>', '', s)` — line 101 of `app.py`. -/
def stripTags (l : List Char) : List Char := stripTagsF l.length l

/-- Case-insensitive comparison of one pattern letter (`re.IGNORECASE`). -/
def lowerEq (c d : Char) : Bool := c.toLower == d

/-- `int()` on a non-empty digit string. -/
def digitsVal (ds : List Char) : Nat :=
  ds.foldl (fun a c => 10 * a + (c.toNat - '0'.toNat)) 0

/-- Try to match `###\s*Slide\s*(\d+)` (case-insensitive) at the head of the
list.  Returns `(slide number, length of the whole match)` on success.
The classes `#`/`\s`/`[SLIDEslide]`/`\d` are pairwise disjoint, so the greedy
`\s*` and `\d+` never backtrack and maximal munch is exact. -/
def matchMarkerAt : List Char → Option (Nat × Nat)
  | '#' :: '#' :: '#' :: rest =>
    let ws1 := rest.takeWhile pySpace
    let r1 := rest.dropWhile pySpace
    match r1 with
    | c1 :: c2 :: c3 :: c4 :: c5 :: r2 =>
      if lowerEq c1 's' && lowerEq c2 'l' && lowerEq c3 'i' &&
         lowerEq c4 'd' && lowerEq c5 'e' then
        let ws2 := r2.takeWhile pySpace
        let r3 := r2.dropWhile pySpace
        let ds := r3.takeWhile Char.isDigit
        if ds.isEmpty then none
        else some (digitsVal ds, 3 + ws1.length + 5 + ws2.length + ds.length)
      else none
    | _ => none
  | _ => none

/-- `re.finditer(pattern, s, re.IGNORECASE)` for the marker pattern, with
fuel: scan every position left to right, emit `(start, end, number)` for each
match and resume scanning at the match end (matches are non-overlapping and
never empty).  Fuel `l.length` is always sufficient because the position
strictly increases at every step. -/
def finditerF (l : List Char) : Nat → Nat → List (Nat × Nat × Nat)
  | 0, _ => []
  | fuel + 1, p =>
    if p < l.length then
      match matchMarkerAt (l.drop p) with
      | some (num, len) => (p, p + len, num) :: finditerF l fuel (p + len)
      | none => finditerF l fuel (p + 1)
    else []

/-- All marker matches of `###\s*Slide\s*(\d+)` in `l`, as
`(start, end, slide number)` triples in left-to-right order — line 105 of
`app.py`. -/
def finditer (l : List Char) : List (Nat × Nat × Nat) := finditerF l l.length 0

/-- The end offset of segment `i`: the start of match `i + 1`, or the text
length for the last match — lines 120–123 of `app.py`. -/
def segEnd (t : List Char) (ms : List (Nat × Nat × Nat)) (i : Nat) : Nat :=
  match ms.drop (i + 1) with
  | [] => t.length
  | m :: _ => m.1

/-- The `(slide number, stripped content)` pair produced for each match, in
match order: content runs from this match's end to the next match's start
(or to end of text) — lines 115–126 of `app.py`. -/
def segmentsOf (t : List Char) : List (Nat × Nat × Nat) → List (Nat × List Char)
  | [] => []
  | m :: rest =>
    (m.2.2,
     pyStrip (sliceStr t m.2.1 (match rest with | [] => t.length | m2 :: _ => m2.1)))
      :: segmentsOf t rest

/-- Python dict assignment `d[k] = v`: overwrite in place if the key exists,
else append (insertion order preserved). -/
def dictInsert (n : Nat) (c : List Char) : List (Nat × List Char) → List (Nat × List Char)
  | [] => [(n, c)]
  | (k, v) :: rest => if k = n then (k, c) :: rest else (k, v) :: dictInsert n c rest

/-- Python dict lookup `d.get(k)`. -/
def dictGet : List (Nat × List Char) → Nat → Option (List Char)
  | [], _ => none
  | (k, v) :: rest, n => if k = n then some v else dictGet rest n

/-- `parse_script` (lines 95–129 of `app.py`): strip markup tags, find all
markers; with no markers, map slide 1 to the whole stripped-and-trimmed text;
otherwise build the dict of per-match segments in match order (so a later
duplicate slide number overwrites an earlier one). -/
def parse_script (s : List Char) : List (Nat × List Char) :=
  match finditer (stripTags s) with
  | [] => [(1, pyStrip (stripTags s))]
  | m :: rest =>
    (segmentsOf (stripTags s) (m :: rest)).foldl (fun acc p => dictInsert p.1 p.2 acc) []

/-- The apply loop of `process_ppt` (lines 143–159 of `app.py`).  A
presentation is its list of per-slide notes texts.  For each mapping entry,
`slide_index = slide_num - 1` (computed in `ℤ`, as Python does); out-of-range
indices are skipped, in-range ones overwrite that slide's notes and bump the
count. -/
def applyLoop : List (List Char) → Nat → List (Nat × List Char) → List (List Char) × Nat
  | slides, cnt, [] => (slides, cnt)
  | slides, cnt, (n, c) :: rest =>
    let idx : Int := (n : Int) - 1
    if idx < 0 || (slides.length : Int) ≤ idx then applyLoop slides cnt rest
    else applyLoop (slides.set (n - 1) c) (cnt + 1) rest

/-- The pure content of `process_ppt`: final notes lists and applied count. -/
def process_ppt (slides : List (List Char)) (data : List (Nat × List Char)) :
    List (List Char) × Nat :=
  applyLoop slides 0 data

/-- The apply loop with a parametric per-slide write-failure model: writing
the notes of slide index `i` raises iff `writeFails i`.  This models the
exception a `python-pptx` call inside the loop may raise. -/
def applyLoopE (writeFails : Nat → Bool) :
    List (List Char) → Nat → List (Nat × List Char) → Except Unit (List (List Char) × Nat)
  | slides, cnt, [] => Except.ok (slides, cnt)
  | slides, cnt, (n, c) :: rest =>
    let idx : Int := (n : Int) - 1
    if idx < 0 || (slides.length : Int) ≤ idx then applyLoopE writeFails slides cnt rest
    else if writeFails (n - 1) then Except.error ()
    else applyLoopE writeFails (slides.set (n - 1) c) (cnt + 1) rest

/-- `process_ppt` with its `try/except` (lines 137–170 of `app.py`): the
external effects — opening the presentation, writing one slide's notes,
re-serializing — are parameters that may raise; any raise lands in the
`except` branch, which returns `(None, 0)`.  On success the serialized output
is modelled by the final notes lists themselves. -/
def process_ppt_exc (openRes : Except Unit (List (List Char))) (writeFails : Nat → Bool)
    (saveFails : Bool) (data : List (Nat × List Char)) :
    Option (List (List Char)) × Nat :=
  match openRes with
  | Except.error _ => (none, 0)
  | Except.ok slides =>
    match applyLoopE writeFails slides 0 data with
    | Except.error _ => (none, 0)
    | Except.ok (res, cnt) => if saveFails then (none, 0) else (some res, cnt)

/-- `true` iff a substring matching `<[^>]+>` starts at the head of the list:
a `<`, then at least one non-`>` character, then the first following `>`. -/
def startsWithTag : List Char → Bool
  | [] => false
  | c :: rest =>
    c == '<' && !(rest.takeWhile (fun x => x != '>')).isEmpty &&
      !(rest.dropWhile (fun x => x != '>')).isEmpty

/-- `true` iff some substring of the list matches `<[^>]+>`. -/
def containsTag : List Char → Bool
  | [] => false
  | c :: rest => startsWithTag (c :: rest) || containsTag rest

/-! ### Lemmas about the dict model -/

theorem dictInsert_ne_nil (n : Nat) (c : List Char) (l : List (Nat × List Char)) :
    dictInsert n c l ≠ [] := by
  cases l with
  | nil => simp [dictInsert]
  | cons h t =>
    obtain ⟨k, v⟩ := h
    simp only [dictInsert]
    split <;> simp

theorem foldl_dictInsert_ne_nil (segs : List (Nat × List Char)) :
    ∀ acc : List (Nat × List Char), acc ≠ [] ∨ segs ≠ [] →
      segs.foldl (fun a p => dictInsert p.1 p.2 a) acc ≠ [] := by
  induction segs with
  | nil => intro acc h; simpa using h
  | cons s rest ih =>
    intro acc _
    simp only [List.foldl_cons]
    exact ih (dictInsert s.1 s.2 acc) (Or.inl (dictInsert_ne_nil s.1 s.2 acc))

theorem mem_dictInsert (p : Nat × List Char) (n : Nat) (c : List Char)
    (l : List (Nat × List Char)) (h : p ∈ dictInsert n c l) : p ∈ l ∨ p = (n, c) := by
  induction l with
  | nil => simpa [dictInsert] using h
  | cons q rest ih =>
    obtain ⟨k, v⟩ := q
    simp only [dictInsert] at h
    by_cases hk : k = n
    · simp only [if_pos hk] at h
      rcases List.mem_cons.mp h with h1 | h1
      · right; rw [h1, hk]
      · left; exact List.mem_cons_of_mem _ h1
    · simp only [if_neg hk] at h
      rcases List.mem_cons.mp h with h1 | h1
      · left; exact h1 ▸ List.mem_cons_self _ _
      · rcases ih h1 with h2 | h2
        · left; exact List.mem_cons_of_mem _ h2
        · right; exact h2

theorem mem_foldl_dictInsert (segs : List (Nat × List Char)) :
    ∀ acc p, p ∈ segs.foldl (fun a q => dictInsert q.1 q.2 a) acc →
      p ∈ acc ∨ p ∈ segs := by
  induction segs with
  | nil => intro acc p h; exact Or.inl (by simpa using h)
  | cons s rest ih =>
    intro acc p h
    simp only [List.foldl_cons] at h
    rcases ih (dictInsert s.1 s.2 acc) p h with h1 | h1
    · rcases mem_dictInsert p s.1 s.2 acc h1 with h2 | h2
      · exact Or.inl h2
      · exact Or.inr (List.mem_cons.mpr (Or.inl (by rw [h2])))
    · exact Or.inr (List.mem_cons_of_mem _ h1)

theorem dictInsert_of_not_mem (n : Nat) (c : List Char) (l : List (Nat × List Char))
    (h : ∀ q ∈ l, q.1 ≠ n) : dictInsert n c l = l ++ [(n, c)] := by
  induction l with
  | nil => simp [dictInsert]
  | cons q rest ih =>
    obtain ⟨k, v⟩ := q
    have hk : k ≠ n := h (k, v) (List.mem_cons_self _ _)
    simp only [dictInsert, if_neg hk, List.cons_append, List.cons.injEq, true_and]
    exact ih (fun q hq => h q (List.mem_cons_of_mem _ hq))

theorem foldl_dictInsert_nodup (segs : List (Nat × List Char)) :
    ∀ acc : List (Nat × List Char),
      (acc.map Prod.fst ++ segs.map Prod.fst).Nodup →
      segs.foldl (fun a p => dictInsert p.1 p.2 a) acc = acc ++ segs := by
  induction segs with
  | nil => intro acc _; simp
  | cons s rest ih =>
    intro acc hnd
    obtain ⟨n, c⟩ := s
    have hnotin : ∀ q ∈ acc, q.1 ≠ n := by
      intro q hq
      have hmemL : q.1 ∈ acc.map Prod.fst := List.mem_map_of_mem Prod.fst hq
      have hmemR : n ∈ ((n, c) :: rest).map Prod.fst := by simp
      have hdisj := (List.nodup_append.mp hnd).2.2
      intro hqn
      exact hdisj (hqn ▸ hmemL) hmemR
    simp only [List.foldl_cons]
    rw [dictInsert_of_not_mem n c acc hnotin]
    have hnd2 : ((acc ++ [(n, c)]).map Prod.fst ++ rest.map Prod.fst).Nodup := by
      simpa [List.append_assoc] using hnd
    rw [ih (acc ++ [(n, c)]) hnd2, List.append_assoc]
    rfl

theorem dictGet_of_mem_nodup (l : List (Nat × List Char))
    (hnd : (l.map Prod.fst).Nodup) (p : Nat × List Char) (hp : p ∈ l) :
    dictGet l p.1 = some p.2 := by
  induction l with
  | nil => cases hp
  | cons q rest ih =>
    obtain ⟨k, v⟩ := q
    rcases List.mem_cons.mp hp with h1 | h1
    · rw [h1]; simp [dictGet]
    · have hk : k ≠ p.1 := by
        have hknot : k ∉ rest.map Prod.fst := (List.nodup_cons.mp (by simpa using hnd)).1
        intro he
        exact hknot (he ▸ List.mem_map_of_mem Prod.fst h1)
      simp only [dictGet, if_neg hk]
      exact ih (List.nodup_cons.mp (by simpa using hnd)).2 h1

/-! ### Lemmas about `segmentsOf` -/

theorem segmentsOf_map_fst (t : List Char) (ms : List (Nat × Nat × Nat)) :
    (segmentsOf t ms).map Prod.fst = ms.map (fun m => m.2.2) := by
  induction ms with
  | nil => rfl
  | cons m rest ih => simp [segmentsOf, ih]

theorem segmentsOf_length (t : List Char) (ms : List (Nat × Nat × Nat)) :
    (segmentsOf t ms).length = ms.length := by
  have := segmentsOf_map_fst t ms
  calc (segmentsOf t ms).length = ((segmentsOf t ms).map Prod.fst).length := by simp
    _ = ms.length := by rw [this]; simp

theorem segmentsOf_getElem? (t : List Char) (ms : List (Nat × Nat × Nat)) :
    ∀ i m, ms[i]? = some m →
      (segmentsOf t ms)[i]? = some (m.2.2, pyStrip (sliceStr t m.2.1 (segEnd t ms i))) := by
  induction ms with
  | nil => intro i m h; simp at h
  | cons m0 rest ih =>
    intro i m h
    cases i with
    | zero =>
      simp only [List.getElem?_cons_zero, Option.some.injEq] at h
      subst h
      cases rest <;> simp [segmentsOf, segEnd]
    | succ j =>
      simp only [List.getElem?_cons_succ] at h
      have := ih j m h
      simpa only [segmentsOf, List.getElem?_cons_succ, segEnd, List.drop_succ_cons] using this

/-! ### The tag pattern as a predicate, and tag-freedom of `stripTags` -/

theorem takeWhile_append_of_dropWhile_ne_nil (p : Char → Bool) (v : List Char) :
    ∀ l : List Char, l.dropWhile p ≠ [] → (l ++ v).takeWhile p = l.takeWhile p := by
  intro l
  induction l with
  | nil => intro h; simp [List.dropWhile] at h
  | cons c rest ih =>
    intro h
    by_cases hc : p c
    · simp only [List.dropWhile_cons, hc, if_true] at h
      simp only [List.cons_append, List.takeWhile_cons, hc, if_true]
      rw [ih h]
    · simp [List.takeWhile_cons, hc]

theorem dropWhile_append_of_dropWhile_ne_nil (p : Char → Bool) (v : List Char) :
    ∀ l : List Char, l.dropWhile p ≠ [] → (l ++ v).dropWhile p = l.dropWhile p ++ v := by
  intro l
  induction l with
  | nil => intro h; simp [List.dropWhile] at h
  | cons c rest ih =>
    intro h
    by_cases hc : p c
    · simp only [List.dropWhile_cons, hc, if_true] at h
      simp only [List.cons_append, List.dropWhile_cons, hc, if_true]
      exact ih h
    · simp [List.dropWhile_cons, hc]

theorem startsWithTag_append (m v : List Char) (h : startsWithTag m = true) :
    startsWithTag (m ++ v) = true := by
  cases m with
  | nil => simp [startsWithTag] at h
  | cons c rest =>
    simp only [startsWithTag, Bool.and_eq_true, beq_iff_eq, Bool.not_eq_true',
      List.isEmpty_eq_false] at h
    obtain ⟨⟨hc, htake⟩, hdrop⟩ := h
    simp only [List.cons_append, startsWithTag, Bool.and_eq_true, beq_iff_eq,
      Bool.not_eq_true', List.isEmpty_eq_false]
    refine ⟨⟨hc, ?_⟩, ?_⟩
    · rw [takeWhile_append_of_dropWhile_ne_nil _ v rest hdrop]; exact htake
    · rw [dropWhile_append_of_dropWhile_ne_nil _ v rest hdrop]
      simp [hdrop]

theorem containsTag_append_right (m v : List Char) (h : containsTag m = true) :
    containsTag (m ++ v) = true := by
  induction m with
  | nil => simp [containsTag] at h
  | cons c rest ih =>
    simp only [containsTag, Bool.or_eq_true] at h
    rcases h with h | h
    · simp only [List.cons_append, containsTag, Bool.or_eq_true]
      exact Or.inl (by simpa using startsWithTag_append (c :: rest) v h)
    · simp only [List.cons_append, containsTag, Bool.or_eq_true]
      exact Or.inr (ih h)

theorem containsTag_append_left (u v : List Char) (h : containsTag v = true) :
    containsTag (u ++ v) = true := by
  induction u with
  | nil => simpa using h
  | cons c rest ih =>
    simp only [List.cons_append, containsTag, Bool.or_eq_true]
    exact Or.inr ih

theorem containsTag_of_take (l : List Char) (k : Nat)
    (h : containsTag (l.take k) = true) : containsTag l = true := by
  have := containsTag_append_right (l.take k) (l.drop k) h
  rwa [List.take_append_drop] at this

theorem containsTag_of_drop (l : List Char) (k : Nat)
    (h : containsTag (l.drop k) = true) : containsTag l = true := by
  have := containsTag_append_left (l.take k) (l.drop k) h
  rwa [List.take_append_drop] at this

theorem dropWhile_eq_drop (p : Char → Bool) :
    ∀ l : List Char, ∃ k, l.dropWhile p = l.drop k := by
  intro l
  induction l with
  | nil => exact ⟨0, rfl⟩
  | cons c rest ih =>
    by_cases hc : p c
    · obtain ⟨k, hk⟩ := ih
      exact ⟨k + 1, by simp [List.dropWhile_cons, hc, hk]⟩
    · exact ⟨0, by simp [List.dropWhile_cons, hc]⟩

theorem containsTag_of_dropWhile (p : Char → Bool) (l : List Char)
    (h : containsTag (l.dropWhile p) = true) : containsTag l = true := by
  obtain ⟨k, hk⟩ := dropWhile_eq_drop p l
  exact containsTag_of_drop l k (hk ▸ h)

theorem containsTag_of_reverse_drop (m : List Char) (k : Nat)
    (h : containsTag ((m.drop k).reverse) = true) : containsTag m.reverse = true := by
  have hsplit : m.reverse = (m.drop k).reverse ++ (m.take k).reverse := by
    rw [← List.reverse_append, List.take_append_drop]
  rw [hsplit]
  exact containsTag_append_right _ _ h

theorem containsTag_of_pyStrip (l : List Char)
    (h : containsTag (pyStrip l) = true) : containsTag l = true := by
  unfold pyStrip at h
  set A := l.dropWhile pySpace with hA
  obtain ⟨k, hk⟩ := dropWhile_eq_drop pySpace A.reverse
  rw [hk] at h
  have h2 : containsTag A.reverse.reverse = true :=
    containsTag_of_reverse_drop A.reverse k (by simpa using h)
  rw [List.reverse_reverse] at h2
  exact containsTag_of_dropWhile pySpace l (hA ▸ h2)

theorem containsTag_of_sliceStr (l : List Char) (a b : Nat)
    (h : containsTag (sliceStr l a b) = true) : containsTag l = true := by
  unfold sliceStr at h
  exact containsTag_of_drop l a (containsTag_of_take (l.drop a) (b - a) h)

theorem stripTagsF_sublist : ∀ fuel l, List.Sublist (stripTagsF fuel l) l := by
  intro fuel
  induction fuel with
  | zero => intro l; simp [stripTagsF]
  | succ f ih =>
    intro l
    cases l with
    | nil => simp [stripTagsF]
    | cons c rest =>
      simp only [stripTagsF]
      by_cases hc : c = '<'
      · simp only [if_pos hc]
        by_cases ht : (rest.takeWhile (fun x => x != '>')).isEmpty = true
        · simp only [if_pos ht]
          exact List.Sublist.cons₂ c (ih rest)
        · simp only [if_neg ht]
          cases hd : rest.dropWhile (fun x => x != '>') with
          | nil => exact List.Sublist.cons₂ c (ih rest)
          | cons d rest2 =>
            have h2 : List.Sublist rest2 rest := by
              have h3 : List.Sublist (d :: rest2) rest := hd ▸ List.dropWhile_sublist _
              exact (List.sublist_cons_self d rest2).trans h3
            exact ((ih rest2).trans h2).cons c
      · simp only [if_neg hc]
        exact List.Sublist.cons₂ c (ih rest)

theorem containsTag_stripTagsF :
    ∀ bound fuel l, l.length ≤ bound → l.length ≤ fuel →
      containsTag (stripTagsF fuel l) = false := by
  intro bound
  induction bound with
  | zero =>
    intro fuel l hb _
    have hl : l = [] := List.length_eq_zero.mp (Nat.le_zero.mp hb)
    subst hl
    cases fuel <;> simp [stripTagsF, containsTag]
  | succ n ih =>
    intro fuel l hb hf
    cases l with
    | nil => cases fuel <;> simp [stripTagsF, containsTag]
    | cons c rest =>
      cases fuel with
      | zero => simp at hf
      | succ f =>
        have hrb : rest.length ≤ n := by simpa using hb
        have hrf : rest.length ≤ f := by simpa using hf
        simp only [stripTagsF]
        by_cases hc : c = '<'
        · by_cases ht : (rest.takeWhile (fun x => x != '>')).isEmpty = true
          · simp only [if_pos hc, if_pos ht]
            cases rest with
            | nil => cases f <;> simp [stripTagsF, containsTag, startsWithTag]
            | cons r rrest =>
              have hr : r = '>' := by
                by_contra hne
                have hbne : (r != '>') = true := by simpa using hne
                simp [List.takeWhile_cons, hbne] at ht
              subst hr
              cases f with
              | zero => simp at hrf
              | succ f2 =>
                have hgt : ('>' : Char) ≠ '<' := by decide
                have hunf : stripTagsF (f2 + 1) ('>' :: rrest) = '>' :: stripTagsF f2 rrest := by
                  simp [stripTagsF, hgt]
                rw [hunf]
                have hX : containsTag (stripTagsF f2 rrest) = false :=
                  ih f2 rrest (by simp at hrb; omega) (by simp at hrf; omega)
                simp [containsTag, startsWithTag, List.takeWhile_cons, hX]
          · simp only [if_pos hc, if_neg ht]
            cases hd : rest.dropWhile (fun x => x != '>') with
            | nil =>
              have hno : ∀ x ∈ rest, x ≠ '>' := by
                intro x hx
                have hall := List.dropWhile_eq_nil_iff.mp hd
                simpa using hall x hx
              have hsub := stripTagsF_sublist f rest
              have hIH : containsTag (stripTagsF f rest) = false := ih f rest hrb hrf
              have hdrop : (stripTagsF f rest).dropWhile (fun x => x != '>') = [] := by
                apply List.dropWhile_eq_nil_iff.mpr
                intro x hx
                simpa using hno x (hsub.subset hx)
              simp [containsTag, startsWithTag, hdrop, hIH]
            | cons d rest2 =>
              have hlen : rest2.length < rest.length := by
                have h3 : List.Sublist (d :: rest2) rest := hd ▸ List.dropWhile_sublist _
                have := h3.length_le
                simp at this
                omega
              exact ih f rest2 (by omega) (by omega)
        · have hIH : containsTag (stripTagsF f rest) = false := ih f rest hrb hrf
          simp [if_neg hc, containsTag, startsWithTag, hc, hIH]

theorem containsTag_stripTags (l : List Char) : containsTag (stripTags l) = false :=
  containsTag_stripTagsF l.length l.length l (Nat.le_refl _) (Nat.le_refl _)

/-! ### Lemmas about the apply loop -/

/-- The loop's `ℤ`-side bounds test, restated over `ℕ`: the pair is applied
exactly when `1 ≤ slide number ≤ slide count`. -/
theorem applyLoop_cons (slides : List (List Char)) (cnt n : Nat) (c : List Char)
    (rest : List (Nat × List Char)) :
    applyLoop slides cnt ((n, c) :: rest) =
      if 1 ≤ n ∧ n ≤ slides.length then applyLoop (slides.set (n - 1) c) (cnt + 1) rest
      else applyLoop slides cnt rest := by
  simp only [applyLoop]
  by_cases h : 1 ≤ n ∧ n ≤ slides.length
  · rw [if_pos h]
    have hcond : (decide ((n : Int) - 1 < 0) || decide ((slides.length : Int) ≤ (n : Int) - 1))
        = false := by
      simp only [Bool.or_eq_false_iff, decide_eq_false_iff_not]
      omega
    rw [hcond]
    simp
  · rw [if_neg h]
    have hcond : (decide ((n : Int) - 1 < 0) || decide ((slides.length : Int) ≤ (n : Int) - 1))
        = true := by
      simp only [Bool.or_eq_true, decide_eq_true_eq]
      omega
    rw [hcond]
    simp

theorem applyLoop_spec : ∀ (data : List (Nat × List Char)) (slides : List (List Char)) (cnt : Nat),
    (applyLoop slides cnt data).1.length = slides.length ∧
    (applyLoop slides cnt data).2 =
      cnt + data.countP (fun p => decide (1 ≤ p.1 ∧ p.1 ≤ slides.length)) := by
  intro data
  induction data with
  | nil => intro slides cnt; simp [applyLoop]
  | cons q rest ih =>
    intro slides cnt
    obtain ⟨n, c⟩ := q
    rw [applyLoop_cons]
    by_cases h : 1 ≤ n ∧ n ≤ slides.length
    · rw [if_pos h]
      obtain ⟨ih1, ih2⟩ := ih (slides.set (n - 1) c) (cnt + 1)
      constructor
      · rw [ih1]; simp
      · rw [ih2]
        simp only [List.length_set, List.countP_cons, decide_eq_true_eq]
        rw [if_pos h]
        omega
    · rw [if_neg h]
      obtain ⟨ih1, ih2⟩ := ih slides cnt
      refine ⟨ih1, ?_⟩
      rw [ih2]
      simp only [List.countP_cons, decide_eq_true_eq]
      rw [if_neg h]
      omega

theorem applyLoop_frame : ∀ (data : List (Nat × List Char)) (slides : List (List Char))
    (cnt j : Nat), (∀ p ∈ data, p.1 ≠ j + 1) →
    (applyLoop slides cnt data).1[j]? = slides[j]? := by
  intro data
  induction data with
  | nil => intro slides cnt j _; simp [applyLoop]
  | cons q rest ih =>
    intro slides cnt j hj
    obtain ⟨n, c⟩ := q
    rw [applyLoop_cons]
    by_cases h : 1 ≤ n ∧ n ≤ slides.length
    · rw [if_pos h]
      have hne : n - 1 ≠ j := by
        have := hj (n, c) (List.mem_cons_self _ _)
        simp only at this
        omega
      rw [ih _ _ j (fun p hp => hj p (List.mem_cons_of_mem _ hp))]
      exact List.getElem?_set_ne hne
    · rw [if_neg h]
      exact ih _ _ j (fun p hp => hj p (List.mem_cons_of_mem _ hp))

theorem applyLoop_hit : ∀ (data : List (Nat × List Char)) (slides : List (List Char))
    (cnt n : Nat) (c : List Char),
    (data.map Prod.fst).Nodup → (n, c) ∈ data → 1 ≤ n → n ≤ slides.length →
    (applyLoop slides cnt data).1[n - 1]? = some c := by
  intro data
  induction data with
  | nil => intro _ _ _ _ _ hmem; cases hmem
  | cons q rest ih =>
    intro slides cnt n c hnd hmem h1 h2
    obtain ⟨k, v⟩ := q
    have hnd' : (rest.map Prod.fst).Nodup := (List.nodup_cons.mp (by simpa using hnd)).2
    rw [applyLoop_cons]
    rcases List.mem_cons.mp hmem with he | hm
    · have hn : n = k := congrArg Prod.fst he
      have hc : c = v := congrArg Prod.snd he
      subst hn; subst hc
      rw [if_pos ⟨h1, h2⟩]
      have hknot : n ∉ rest.map Prod.fst := (List.nodup_cons.mp (by simpa using hnd)).1
      have hrest : ∀ p ∈ rest, p.1 ≠ (n - 1) + 1 := by
        intro p hp hpe
        have hp1 : p.1 = n := by omega
        exact hknot (hp1 ▸ List.mem_map_of_mem Prod.fst hp)
      rw [applyLoop_frame rest _ _ (n - 1) hrest]
      exact List.getElem?_set_eq_of_lt c (by omega)
    · by_cases h : 1 ≤ k ∧ k ≤ slides.length
      · rw [if_pos h]
        exact ih _ _ n c hnd' hm h1 (by simpa using h2)
      · rw [if_neg h]
        exact ih _ _ n c hnd' hm h1 h2

/-- SlideNoteMaps have distinct keys: the applied count is at most the slide
count, because distinct in-range keys map injectively into the `N` slides. -/
theorem countP_inRange_le (slides : List (List Char)) (data : List (Nat × List Char))
    (hnd : (data.map Prod.fst).Nodup) :
    data.countP (fun p => decide (1 ≤ p.1 ∧ p.1 ≤ slides.length)) ≤ slides.length := by
  rw [List.countP_eq_length_filter]
  set N := slides.length with hN
  set fil := data.filter (fun p => decide (1 ≤ p.1 ∧ p.1 ≤ N)) with hfil
  have hsub : List.Sublist fil data := List.filter_sublist data
  have hkeys : (fil.map Prod.fst).Nodup := List.Nodup.sublist (hsub.map Prod.fst) hnd
  have hbound : ∀ k ∈ fil.map Prod.fst, 1 ≤ k ∧ k ≤ N := by
    intro k hk
    obtain ⟨p, hp, hpk⟩ := List.mem_map.mp hk
    have := (List.mem_filter.mp (hfil ▸ hp)).2
    simp only [decide_eq_true_eq] at this
    omega
  have hnd1 : ((fil.map Prod.fst).map (fun k => k - 1)).Nodup := by
    apply List.Nodup.map_on _ hkeys
    intro x hx y hy hxy
    have h1 := hbound x hx
    have h2 := hbound y hy
    omega
  have hsubset : ((fil.map Prod.fst).map (fun k => k - 1)) ⊆ List.range N := by
    intro m hm
    obtain ⟨k, hk, hkm⟩ := List.mem_map.mp hm
    have := hbound k hk
    rw [List.mem_range]
    omega
  have hperm := List.Nodup.subperm hnd1 hsubset
  have hlen := hperm.length_le
  simpa using hlen

/-! ### Case lemmas for `parse_script` and auxiliary facts -/

theorem parse_script_nil_case (s : List Char) (h : finditer (stripTags s) = []) :
    parse_script s = [(1, pyStrip (stripTags s))] := by
  unfold parse_script
  rw [h]

theorem parse_script_cons_case (s : List Char) (m : Nat × Nat × Nat)
    (rest : List (Nat × Nat × Nat)) (h : finditer (stripTags s) = m :: rest) :
    parse_script s =
      (segmentsOf (stripTags s) (m :: rest)).foldl (fun acc p => dictInsert p.1 p.2 acc) [] := by
  unfold parse_script
  rw [h]

theorem containsTag_pyStrip_sliceStr (t : List Char) (a b : Nat)
    (htag : containsTag t = false) : containsTag (pyStrip (sliceStr t a b)) = false := by
  cases hb : containsTag (pyStrip (sliceStr t a b)) with
  | false => rfl
  | true =>
    exfalso
    have h2 := containsTag_of_sliceStr t a b (containsTag_of_pyStrip _ hb)
    rw [htag] at h2
    cases h2

theorem segmentsOf_tagfree (t : List Char) (htag : containsTag t = false) :
    ∀ (ms : List (Nat × Nat × Nat)) (p : Nat × List Char),
      p ∈ segmentsOf t ms → containsTag p.2 = false := by
  intro ms
  induction ms with
  | nil => intro p hp; cases hp
  | cons m rest ih =>
    intro p hp
    rcases List.mem_cons.mp hp with he | hm
    · rw [he]
      exact containsTag_pyStrip_sliceStr t m.2.1 _ htag
    · exact ih p hm

theorem stripTagsF_of_no_lt : ∀ (fuel : Nat) (l : List Char),
    (∀ c ∈ l, c ≠ '<') → stripTagsF fuel l = l := by
  intro fuel
  induction fuel with
  | zero => intro l _; rfl
  | succ f ih =>
    intro l hno
    cases l with
    | nil => rfl
    | cons c rest =>
      have hc : c ≠ '<' := hno c (List.mem_cons_self _ _)
      simp only [stripTagsF, if_neg hc]
      rw [ih rest (fun x hx => hno x (List.mem_cons_of_mem _ hx))]

theorem matchMarkerAt_of_no_hash (l : List Char) (hno : ∀ c ∈ l, c ≠ '#') :
    matchMarkerAt l = none := by
  cases l with
  | nil => rfl
  | cons c rest =>
    have hc : c ≠ '#' := hno c (List.mem_cons_self _ _)
    unfold matchMarkerAt
    split
    · next heq =>
      exfalso
      apply hc
      injection heq
    · rfl

theorem finditerF_of_no_hash (l : List Char) (hno : ∀ c ∈ l, c ≠ '#') :
    ∀ (fuel p : Nat), finditerF l fuel p = [] := by
  intro fuel
  induction fuel with
  | zero => intro p; rfl
  | succ f ih =>
    intro p
    simp only [finditerF]
    by_cases hp : p < l.length
    · rw [if_pos hp]
      have hm : matchMarkerAt (l.drop p) = none :=
        matchMarkerAt_of_no_hash _ (fun c hc => hno c (List.drop_subset p l hc))
      rw [hm]
      exact ih (p + 1)
    · rw [if_neg hp]

theorem pyStrip_all_space (l : List Char) (h : ∀ c ∈ l, pySpace c = true) :
    pyStrip l = [] := by
  have hdrop : l.dropWhile pySpace = [] := List.dropWhile_eq_nil_iff.mpr h
  simp [pyStrip, hdrop]

/-! ### The claims -/

/-- **C1** — Segmentation algorithm: markers are collected in left-to-right
order (`finditer`); for occurrence `i`, the note text assigned to its slide
number is the substring of the preprocessed text from the end of occurrence
`i`'s marker to the start of occurrence `i + 1`'s marker (or to end of text
for the last occurrence), trimmed; with `k` markers for `k` distinct slide
numbers, the mapping has exactly `k` entries keyed by those numbers, in
order. -/
theorem parse_script_segmentation (s : List Char) (ms : List (Nat × Nat × Nat))
    (hms : finditer (stripTags s) = ms) (hne : ms ≠ [])
    (hnd : (ms.map (fun m => m.2.2)).Nodup) :
    (parse_script s).map Prod.fst = ms.map (fun m => m.2.2) ∧
    (parse_script s).length = ms.length ∧
    (∀ i m, ms[i]? = some m →
      dictGet (parse_script s) m.2.2 =
        some (pyStrip (sliceStr (stripTags s) m.2.1 (segEnd (stripTags s) ms i)))) := by
  obtain ⟨m0, rest, rfl⟩ : ∃ m0 rest, ms = m0 :: rest := by
    cases ms with
    | nil => exact absurd rfl hne
    | cons a b => exact ⟨a, b, rfl⟩
  have hps := parse_script_cons_case s m0 rest hms
  have hsegnd : ((([] : List (Nat × List Char)).map Prod.fst) ++
      (segmentsOf (stripTags s) (m0 :: rest)).map Prod.fst).Nodup := by
    rw [segmentsOf_map_fst]
    simpa using hnd
  have hfold := foldl_dictInsert_nodup (segmentsOf (stripTags s) (m0 :: rest)) [] hsegnd
  rw [List.nil_append] at hfold
  rw [hps, hfold]
  refine ⟨segmentsOf_map_fst _ _, segmentsOf_length _ _, ?_⟩
  intro i m hm
  have hget := segmentsOf_getElem? (stripTags s) (m0 :: rest) i m hm
  have hmem : (m.2.2, pyStrip (sliceStr (stripTags s) m.2.1 (segEnd (stripTags s) (m0 :: rest) i)))
      ∈ segmentsOf (stripTags s) (m0 :: rest) := List.getElem?_mem hget
  have hsnd : ((segmentsOf (stripTags s) (m0 :: rest)).map Prod.fst).Nodup := by
    rw [segmentsOf_map_fst]
    exact hnd
  have := dictGet_of_mem_nodup _ hsnd _ hmem
  simpa using this

/-- **C1** witness at end-to-end scenario 1. -/
theorem parse_script_segmentation_witness :
    (parse_script "### Slide 1\nHello\n### Slide 2\nWorld".toList).map Prod.fst = [1, 2] ∧
    dictGet (parse_script "### Slide 1\nHello\n### Slide 2\nWorld".toList) 2 =
      some "World".toList := by
  have h := parse_script_segmentation "### Slide 1\nHello\n### Slide 2\nWorld".toList
    [(0, 11, 1), (18, 29, 2)] (by decide) (by decide) (by decide)
  refine ⟨by simpa using h.1, ?_⟩
  have h2 := h.2.2 1 (18, 29, 2) (by decide)
  rw [show ((18, 29, 2) : Nat × Nat × Nat).2.2 = 2 from rfl] at h2
  rw [h2]
  decide

/-- **C2** — Applier bounds and count: every pair whose zero-based index
`slideNumber - 1` lies outside `[0, N-1]` is skipped without incrementing the
count; the returned count equals the number of in-range entries, hence is at
most the number of mapping entries and (keys of a mapping being distinct) at
most `N`. -/
theorem process_ppt_count (slides : List (List Char)) (data : List (Nat × List Char))
    (hnd : (data.map Prod.fst).Nodup) :
    (process_ppt slides data).2 =
      data.countP (fun p => decide (1 ≤ p.1 ∧ p.1 ≤ slides.length)) ∧
    (process_ppt slides data).2 ≤ data.length ∧
    (process_ppt slides data).2 ≤ slides.length := by
  have h := (applyLoop_spec data slides 0).2
  unfold process_ppt
  rw [h]
  refine ⟨by simp, ?_, ?_⟩
  · simpa using List.countP_le_length (l := data) (fun p : Nat × List Char => decide (1 ≤ p.1 ∧ p.1 ≤ slides.length))
  · simpa using countP_inRange_le slides data hnd

/-- **C2** witness: three entries, one in range of a 2-slide presentation. -/
theorem process_ppt_count_witness :
    (process_ppt [[], []] [(1, ['x']), (5, ['y']), (0, ['z'])]).2 = 1 ∧
    (process_ppt [[], []] [(1, ['x']), (5, ['y']), (0, ['z'])]).2 ≤ 3 ∧
    (process_ppt [[], []] [(1, ['x']), (5, ['y']), (0, ['z'])]).2 ≤ 2 := by
  obtain ⟨h1, h2, h3⟩ :=
    process_ppt_count [[], []] [(1, ['x']), (5, ['y']), (0, ['z'])] (by decide)
  refine ⟨?_, h2, h3⟩
  rw [h1]
  decide

/-- **C3** — Last duplicate wins: with exactly two markers declaring the same
slide number, the mapping has a single entry for that number whose value is
the trimmed content after the second occurrence; and the end-to-end scenario
`"### SLIDE 2\n<break/>Content A\n### slide 2\nContent B"` on a 2-slide
presentation sets slide 2's notes to `"Content B"` with applied count 1. -/
theorem parse_script_lastDupWins :
    (∀ (s : List Char) (m1 m2 : Nat × Nat × Nat),
       finditer (stripTags s) = [m1, m2] → m1.2.2 = m2.2.2 →
       parse_script s =
         [(m2.2.2, pyStrip (sliceStr (stripTags s) m2.2.1 (stripTags s).length))]) ∧
    (∀ a b : List Char,
       process_ppt [a, b]
         (parse_script "### SLIDE 2\n<break/>Content A\n### slide 2\nContent B".toList) =
         ([a, "Content B".toList], 1)) := by
  constructor
  · intro s m1 m2 hms heq
    have hps := parse_script_cons_case s m1 [m2] hms
    rw [hps]
    simp only [segmentsOf, List.foldl_cons, List.foldl_nil]
    rw [show dictInsert m1.2.2 (pyStrip (sliceStr (stripTags s) m1.2.1 m2.1)) [] =
      [(m1.2.2, pyStrip (sliceStr (stripTags s) m1.2.1 m2.1))] from rfl]
    simp only [dictInsert, if_pos heq]
    rw [heq]
  · intro a b
    have hps : parse_script "### SLIDE 2\n<break/>Content A\n### slide 2\nContent B".toList
        = [(2, "Content B".toList)] := by decide
    rw [hps]
    unfold process_ppt
    rw [applyLoop_cons]
    have hcond : 1 ≤ 2 ∧ 2 ≤ [a, b].length := by simp
    rw [if_pos hcond]
    simp [applyLoop]

/-- **C3** witness at the claim's concrete scenario. -/
theorem parse_script_lastDupWins_witness :
    parse_script "### SLIDE 2\n<break/>Content A\n### slide 2\nContent B".toList =
      [(2, "Content B".toList)] ∧
    process_ppt [['x'], ['y']]
      (parse_script "### SLIDE 2\n<break/>Content A\n### slide 2\nContent B".toList) =
      ([['x'], "Content B".toList], 1) := by
  refine ⟨?_, parse_script_lastDupWins.2 ['x'] ['y']⟩
  have h := parse_script_lastDupWins.1
    "### SLIDE 2\n<break/>Content A\n### slide 2\nContent B".toList
    (0, 11, 2) (22, 33, 2) (by decide) rfl
  rw [h]
  decide

/-- **C4** counterexample: for `"a<b>c"` no marker is found, yet the single
entry's value is the trimmed *tag-stripped* text `"ac"`, not the trimmed
input `"a<b>c"`: the claim's "value equals the trimmed input" fails whenever
the input contains markup tags. -/
theorem parse_script_fallback_counterexample :
    finditer (stripTags "a<b>c".toList) = [] ∧
    parse_script "a<b>c".toList ≠ [(1, pyStrip "a<b>c".toList)] := by
  decide

/-- **C4** (amended) — Zero-marker fallback: when no marker is found, the
Segmenter returns exactly one entry, keyed 1, whose value is the trimmed
tag-stripped input. -/
theorem parse_script_fallback (s : List Char) (h : finditer (stripTags s) = []) :
    parse_script s = [(1, pyStrip (stripTags s))] ∧ (parse_script s).length = 1 := by
  refine ⟨parse_script_nil_case s h, ?_⟩
  rw [parse_script_nil_case s h]
  rfl

/-- **C4** witness. -/
theorem parse_script_fallback_witness :
    parse_script "  hello  ".toList = [(1, "hello".toList)] ∧
    (parse_script "  hello  ".toList).length = 1 := by
  obtain ⟨h1, h2⟩ := parse_script_fallback "  hello  ".toList (by decide)
  refine ⟨?_, h2⟩
  rw [h1]
  decide

/-- **C5** — Markup stripping: every substring matching `<[^>]+>` is deleted
before marker scanning, so the preprocessed text contains no tag and no
output note text contains a tag. -/
theorem parse_script_markup_stripped (s : List Char) (p : Nat × List Char)
    (hp : p ∈ parse_script s) :
    containsTag (stripTags s) = false ∧ containsTag p.2 = false := by
  refine ⟨containsTag_stripTags s, ?_⟩
  cases hfd : finditer (stripTags s) with
  | nil =>
    rw [parse_script_nil_case s hfd] at hp
    have hpe : p = (1, pyStrip (stripTags s)) := by simpa using hp
    rw [hpe]
    cases hb : containsTag (pyStrip (stripTags s)) with
    | false => rfl
    | true =>
      exfalso
      have h2 := containsTag_of_pyStrip _ hb
      rw [containsTag_stripTags s] at h2
      cases h2
  | cons m rest =>
    rw [parse_script_cons_case s m rest hfd] at hp
    rcases mem_foldl_dictInsert _ [] p hp with h0 | hseg
    · cases h0
    · exact segmentsOf_tagfree (stripTags s) (containsTag_stripTags s) (m :: rest) p hseg

/-- **C5** witness. -/
theorem parse_script_markup_stripped_witness :
    containsTag (stripTags "x<tag>y".toList) = false ∧
    containsTag "xy".toList = false :=
  parse_script_markup_stripped "x<tag>y".toList (1, "xy".toList) (by decide)

/-- **C6** counterexample: the marker `"### Slide 0"` parses to key 0, so not
every key of the returned SlideNoteMap is ≥ 1. -/
theorem parse_script_key_zero_counterexample :
    parse_script "### Slide 0\nx".toList = [(0, ['x'])] ∧
    ¬(∀ k ∈ (parse_script "### Slide 0\nx".toList).map Prod.fst, 1 ≤ k) := by
  decide

/-- **C6** (amended) — Key invariant: every key of the returned SlideNoteMap
is either 1 (the zero-marker fallback key) or the number parsed from some
marker's digits; the parsed digits may be `0`, so keys are ≥ 0 but not
necessarily ≥ 1. -/
theorem parse_script_keys (s : List Char) (k : Nat)
    (hk : k ∈ (parse_script s).map Prod.fst) :
    k = 1 ∨ ∃ m ∈ finditer (stripTags s), m.2.2 = k := by
  cases hfd : finditer (stripTags s) with
  | nil =>
    rw [parse_script_nil_case s hfd] at hk
    left
    simpa using hk
  | cons m rest =>
    rw [parse_script_cons_case s m rest hfd] at hk
    right
    obtain ⟨p, hp, hpk⟩ := List.mem_map.mp hk
    rcases mem_foldl_dictInsert _ [] p hp with h0 | hseg
    · cases h0
    · have hmem : p.1 ∈ (segmentsOf (stripTags s) (m :: rest)).map Prod.fst :=
        List.mem_map_of_mem Prod.fst hseg
      rw [segmentsOf_map_fst] at hmem
      obtain ⟨mm, hmm, hmk⟩ := List.mem_map.mp hmem
      exact ⟨mm, hfd ▸ hmm, by rw [hmk, hpk]⟩

/-- **C6** witness. -/
theorem parse_script_keys_witness :
    (3 : Nat) = 1 ∨ ∃ m ∈ finditer (stripTags "### Slide 3\nhi".toList), m.2.2 = 3 :=
  parse_script_keys "### Slide 3\nhi".toList 3 (by decide)

/-- **C7** — Frame effect of the Applier: applying a SlideNoteMap overwrites
each in-range targeted slide's notes with the mapped value, leaves every
untargeted slide's notes unchanged, and a marker-free script against a
3-slide presentation sets slide 1's notes to the trimmed text, leaves slides
2 and 3 unchanged, with applied count 1. -/
theorem process_ppt_frame :
    (∀ (slides : List (List Char)) (data : List (Nat × List Char)) (j : Nat),
       (∀ p ∈ data, p.1 ≠ j + 1) → (process_ppt slides data).1[j]? = slides[j]?) ∧
    (∀ (slides : List (List Char)) (data : List (Nat × List Char)) (n : Nat) (c : List Char),
       (data.map Prod.fst).Nodup → (n, c) ∈ data → 1 ≤ n → n ≤ slides.length →
       (process_ppt slides data).1[n - 1]? = some c) ∧
    (∀ (s a b c : List Char), finditer (stripTags s) = [] →
       process_ppt [a, b, c] (parse_script s) = ([pyStrip (stripTags s), b, c], 1)) := by
  refine ⟨?_, ?_, ?_⟩
  · intro slides data j hj
    exact applyLoop_frame data slides 0 j hj
  · intro slides data n c hnd hmem h1 h2
    exact applyLoop_hit data slides 0 n c hnd hmem h1 h2
  · intro s a b c hfd
    rw [parse_script_nil_case s hfd]
    unfold process_ppt
    rw [applyLoop_cons]
    have hcond : 1 ≤ 1 ∧ 1 ≤ [a, b, c].length := by simp
    rw [if_pos hcond]
    simp [applyLoop]

/-- **C7** witness at end-to-end scenario 2. -/
theorem process_ppt_frame_witness :
    process_ppt [['A'], ['B'], ['C']] (parse_script "Just some text, no markers".toList) =
      (["Just some text, no markers".toList, ['B'], ['C']], 1) := by
  have h := process_ppt_frame.2.2 "Just some text, no markers".toList ['A'] ['B'] ['C']
    (by decide)
  rw [h]
  decide

/-- **C8** — Segmenter totality: `parse_script` is a total function (so every
input yields a SlideNoteMap with no error path — totality is enforced by the
embedding itself), and for every non-empty input the returned mapping is
non-empty. -/
theorem parse_script_total (s : List Char) (_hs : s ≠ []) : parse_script s ≠ [] := by
  cases hfd : finditer (stripTags s) with
  | nil =>
    rw [parse_script_nil_case s hfd]
    simp
  | cons m rest =>
    rw [parse_script_cons_case s m rest hfd]
    apply foldl_dictInsert_ne_nil
    right
    simp [segmentsOf]

/-- **C8** witness. -/
theorem parse_script_total_witness : parse_script ['x'] ≠ [] :=
  parse_script_total ['x'] (by decide)

/-- Sanity: with no external failure the exception-aware model agrees with
the pure apply loop. -/
theorem applyLoopE_no_failure :
    ∀ (data : List (Nat × List Char)) (slides : List (List Char)) (cnt : Nat),
      applyLoopE (fun _ => false) slides cnt data = Except.ok (applyLoop slides cnt data) := by
  intro data
  induction data with
  | nil => intro slides cnt; rfl
  | cons q rest ih =>
    intro slides cnt
    obtain ⟨n, c⟩ := q
    simp only [applyLoopE, applyLoop]
    split
    · exact ih slides cnt
    · exact ih (slides.set (n - 1) c) (cnt + 1)

/-- Sanity: on the success path the exception-aware model returns the pure
result and its count. -/
theorem process_ppt_exc_ok (slides : List (List Char)) (data : List (Nat × List Char)) :
    process_ppt_exc (Except.ok slides) (fun _ => false) false data =
      (some (process_ppt slides data).1, (process_ppt slides data).2) := by
  simp only [process_ppt_exc, process_ppt]
  rw [applyLoopE_no_failure data slides 0]
  cases hres : applyLoop slides 0 data with
  | mk res cnt => rfl

/-- **C9** — Container-failure atomicity: if opening the presentation fails,
or writing any slide's notes fails mid-loop, or re-serialization fails, the
`except` branch of `process_ppt` is taken and the result is `(None, 0)` — no
output bytes and no partial applied count. -/
theorem process_ppt_exc_fatal (openRes : Except Unit (List (List Char)))
    (writeFails : Nat → Bool) (saveFails : Bool) (data : List (Nat × List Char))
    (h : openRes = Except.error () ∨
         (∃ slides, openRes = Except.ok slides ∧
            applyLoopE writeFails slides 0 data = Except.error ()) ∨
         saveFails = true) :
    process_ppt_exc openRes writeFails saveFails data = (none, 0) := by
  rcases h with h | ⟨slides, hop, hloop⟩ | h
  · rw [h]
    rfl
  · rw [hop]
    simp only [process_ppt_exc]
    rw [hloop]
  · subst h
    cases openRes with
    | error u => rfl
    | ok slides =>
      simp only [process_ppt_exc]
      cases hl : applyLoopE writeFails slides 0 data with
      | error u => rfl
      | ok r =>
        obtain ⟨res, cnt⟩ := r
        rfl

/-- **C9** witness: a write failure on slide index 0 mid-loop. -/
theorem process_ppt_exc_fatal_witness :
    process_ppt_exc (Except.ok [[]]) (fun i => decide (i = 0)) false [(1, ['a'])] = (none, 0) :=
  process_ppt_exc_fatal (Except.ok [[]]) (fun i => decide (i = 0)) false [(1, ['a'])]
    (Or.inr (Or.inl ⟨[[]], rfl, rfl⟩))

/-- **C10** — Empty and whitespace-only input: the Segmenter returns the
single-entry mapping `1 ↦ ""`, and applying it to a presentation with at
least one slide overwrites slide 1's notes with the empty string, applied
count 1. -/
theorem parse_script_empty_input (s : List Char) (hws : ∀ c ∈ s, pySpace c = true) :
    parse_script s = [(1, [])] ∧
    (∀ slides : List (List Char), 1 ≤ slides.length →
       process_ppt slides (parse_script s) = (slides.set 0 [], 1)) := by
  have hlt : ∀ c ∈ s, c ≠ '<' := by
    intro c hc he
    have := hws c hc
    rw [he] at this
    simp [pySpace] at this
  have hhash : ∀ c ∈ s, c ≠ '#' := by
    intro c hc he
    have := hws c hc
    rw [he] at this
    simp [pySpace] at this
  have hst : stripTags s = s := stripTagsF_of_no_lt s.length s hlt
  have hfd : finditer (stripTags s) = [] := by
    rw [hst]
    exact finditerF_of_no_hash s hhash s.length 0
  have hps : parse_script s = [(1, [])] := by
    rw [parse_script_nil_case s hfd, hst, pyStrip_all_space s hws]
  refine ⟨hps, ?_⟩
  intro slides hN
  rw [hps]
  unfold process_ppt
  rw [applyLoop_cons]
  rw [if_pos ⟨Nat.le_refl 1, hN⟩]
  rfl

/-- **C10** witness: the empty script applied to a 1-slide presentation. -/
theorem parse_script_empty_input_witness :
    parse_script "".toList = [(1, [])] ∧
    process_ppt [['q']] (parse_script "".toList) = ([[]], 1) := by
  have h := parse_script_empty_input "".toList (by decide)
  refine ⟨h.1, ?_⟩
  have h2 := h.2 [['q']] (by decide)
  rw [h2]
  rfl
